import Mathlib

/-!
Verification of the intent-classification / routing and document-retrieval (RAG)
core of the technician support chatbot.  The functions embedded here are the
ones written by `setup.py` into `models/intent_classifier.py`
(class `IntentClassifier`) and `models/rag_system.py` (class `RAGSystem`).
Python floats are modelled as rationals, Python sets of words as finite sets,
dicts as ordered association lists (a Python dict iterates in insertion order).
-/

/-- Python's substring test `needle in hay` on strings. -/
def strContains (hay needle : String) : Bool :=
  hay.data.tails.any (fun t => needle.data.isPrefixOf t)

/-- Python's `str.lower()` (character-wise lowering). -/
def lowerStr (s : String) : String := String.mk (s.data.map Char.toLower)

/-- Helper for `pyWords`: Python's `str.split()` with no separator splits on runs
of whitespace and drops empty pieces.  `acc` holds the current word reversed. -/
def splitWsAux : List Char → List Char → List String
  | [], [] => []
  | [], acc => [String.mk acc.reverse]
  | c :: cs, acc =>
    if c.isWhitespace then
      (if acc = [] then splitWsAux cs [] else String.mk acc.reverse :: splitWsAux cs [])
    else splitWsAux cs (c :: acc)

/-- `text.lower().split()` as used by `RAGSystem.retrieve_context`. -/
def pyWords (s : String) : List String := splitWsAux (lowerStr s).data []

/-- `set(text.lower().split())`: the lowercase word set of a query or document. -/
def wordSet (s : String) : Finset String := (pyWords s).toFinset

/-- An intent table: ordered mapping from intent name to its keyword list
(`IntentClassifier.intent_keywords`). -/
abbrev IntentTable := List (String × List String)

/-- The built-in default keyword model from `IntentClassifier.create_default_model`. -/
def default_intent_keywords : IntentTable :=
  [("greeting", ["hello", "hi", "hey", "greetings", "good morning", "good afternoon"]),
   ("goodbye", ["bye", "goodbye", "farewell", "see you", "exit", "quit"]),
   ("help", ["help", "assist", "what can you do", "capabilities", "guide"]),
   ("simple_troubleshooting",
     ["motor", "pump", "not working", "stopped", "problem", "issue", "broken", "repair", "fix"]),
   ("safety_query", ["safety", "lockout", "tagout", "loto", "ppe", "hazard", "emergency"]),
   ("maintenance_planning", ["maintenance", "schedule", "service", "inspection", "routine"]),
   ("equipment_specific", ["hvac", "compressor", "valve", "sensor", "electrical", "mechanical"]),
   ("technical_explanation", ["how does", "explain", "why", "what causes", "principle", "theory"]),
   ("unclear", ["unclear", "don't know", "not sure", "confusing", "huh"])]

/-- The result dict produced by `IntentClassifier.classify`. -/
structure ClassificationResult where
  intent : String
  confidence : ℚ
  route : String
deriving DecidableEq

/-- The `simple_intents` list of `IntentClassifier._determine_route`. -/
def simple_intents : List String :=
  ["greeting", "goodbye", "help", "simple_troubleshooting", "safety_query"]

/-- `IntentClassifier._determine_route`. -/
def determine_route (intent : String) (confidence : ℚ) (text : String) : String :=
  if intent ∈ simple_intents ∧ confidence > 1/2 then "rule_based"
  else if confidence < 3/10 then "rule_based"
  else if confidence > 7/10 then "llm" else "rule_based"

/-- Accumulated score of one intent in `classify`: one `1.0 / len(keywords)`
increment per keyword that occurs in the lowered text. -/
def intentScore (textLower : String) (keywords : List String) : ℚ :=
  keywords.foldl
    (fun s kw => if strContains textLower kw then s + 1 / (keywords.length : ℚ) else s) 0

/-- The `scores` defaultdict after the scoring loop of `classify`: the intents
that matched at least one keyword, in table order, with their scores (a
defaultdict only acquires a key when `+=` first touches it). -/
def computeScores (table : IntentTable) (textLower : String) : List (String × ℚ) :=
  table.filterMap (fun p =>
    if p.2.any (fun kw => strContains textLower kw) then some (p.1, intentScore textLower p.2)
    else none)

/-- Python's `max(scores, key=scores.get)`: the first key attaining the maximal
score (`max` keeps the current item unless a later key is strictly greater). -/
def maxScore : List (String × ℚ) → Option (String × ℚ)
  | [] => none
  | x :: xs => some (xs.foldl (fun b y => if b.2 < y.2 then y else b) x)

/-- `IntentClassifier.classify`. -/
def classify (table : IntentTable) (text : String) : ClassificationResult :=
  let textLower := lowerStr text
  match maxScore (computeScores table textLower) with
  | none => ⟨"unclear", 1/10, "rule_based"⟩
  | some p =>
      let confidence := min p.2 1
      ⟨p.1, confidence, determine_route p.1 confidence textLower⟩

/-- The metadata dict `{'filename': ..., 'source': ...}` attached to a document. -/
structure DocMeta where
  filename : String
  source : String
deriving DecidableEq

/-- One entry of the list returned by `RAGSystem.retrieve_context`. -/
structure RetrievalResult where
  text : String
  metadata : DocMeta
  similarity_score : ℚ
  rank : ℕ
deriving DecidableEq

/-- The in-memory state of `RAGSystem`: parallel lists `documents`/`metadata`. -/
structure RAGSystem where
  documents : List String
  metadata : List DocMeta
deriving DecidableEq

/-- The scoring loop of `retrieve_context`: scan the documents in order and
append an entry (with `rank = len(scored_docs) + 1`, i.e. one past the length
of the accumulator at the moment of the append) for every document whose word
set meets the query's. -/
def scoreLoop (qw : Finset String) :
    List (String × DocMeta) → List RetrievalResult → List RetrievalResult
  | [], acc => acc
  | (doc, meta) :: rest, acc =>
      if 0 < (qw ∩ wordSet doc).card then
        scoreLoop qw rest
          (acc ++ [⟨doc, meta,
            ((qw ∩ wordSet doc).card : ℚ) / ((qw ∪ wordSet doc).card : ℚ),
            acc.length + 1⟩])
      else scoreLoop qw rest acc

/-- The `scored_docs` list of `retrieve_context` before it is sorted. -/
def scoredDocs (sys : RAGSystem) (query : String) : List RetrievalResult :=
  scoreLoop (wordSet query) (sys.documents.zip sys.metadata) []

/-- Stable insertion into a list sorted by descending score: the new element is
placed before the first element whose score is not greater than its own. -/
def insertDesc (x : RetrievalResult) : List RetrievalResult → List RetrievalResult
  | [] => [x]
  | y :: ys =>
      if y.similarity_score ≤ x.similarity_score then x :: y :: ys
      else y :: insertDesc x ys

/-- Python's `scored_docs.sort(key=lambda x: x['similarity_score'], reverse=True)`:
a stable sort by descending similarity score (Python's sort is stable also with
`reverse=True`). -/
def sortDesc : List RetrievalResult → List RetrievalResult
  | [] => []
  | x :: xs => insertDesc x (sortDesc xs)

/-- `RAGSystem.retrieve_context` (`k` is the Python `k >= 0`; `[:k]` is `take k`). -/
def retrieve_context (sys : RAGSystem) (query : String) (k : ℕ) : List RetrievalResult :=
  if sys.documents = [] then []
  else (sortDesc (scoredDocs sys query)).take k

/-- Python's `sep.join(parts)`. -/
def joinSep (sep : String) : List String → String
  | [] => ""
  | [x] => x
  | x :: xs => x ++ sep ++ joinSep sep xs

/-- One context block: `"Source: " + filename + "\n" + text`. -/
def contextBlock (r : RetrievalResult) : String :=
  "Source: " ++ r.metadata.filename ++ "\n" ++ r.text

/-- `RAGSystem.get_context_string`. -/
def get_context_string (sys : RAGSystem) (query : String) (k : ℕ) : String :=
  let results := retrieve_context sys query k
  if results = [] then ""
  else joinSep "\n\n---\n\n" (results.map contextBlock)

/-- One directory entry seen by `index_documents`; `content = none` models a
file whose read raises, which the inner `except` skips. -/
structure FileEntry where
  name : String
  path : String
  content : Option String
deriving DecidableEq

/-- `RAGSystem.index_documents` over an abstract directory scan.  `scan = none`
models `Path(path).glob('*.txt')` raising (directory unreadable): the outer
`except` then returns `False` — but `self.documents = []` and
`self.metadata = []` have already run, so the returned state is the cleared
store, not the previous one. -/
def index_documents (st : RAGSystem) (scan : Option (List FileEntry)) : RAGSystem × Bool :=
  match st, scan with
  | _, none => (⟨[], []⟩, false)
  | _, some files =>
      (files.foldl
        (fun s fe =>
          match fe.content with
          | some c => ⟨s.documents ++ [c], s.metadata ++ [⟨fe.name, fe.path⟩]⟩
          | none => s)
        ⟨[], []⟩, true)

/-- JSON values as produced/consumed by Python's `json` module. -/
inductive Json where
  | null : Json
  | bool : Bool → Json
  | num : ℚ → Json
  | str : String → Json
  | arr : List Json → Json
  | obj : List (String × Json) → Json

/-- Read a JSON array's elements back as a list of strings. -/
def decodeStrList : List Json → Option (List String)
  | [] => some []
  | Json.str s :: rest => (decodeStrList rest).map (fun ws => s :: ws)
  | _ => none

/-- Read the key/value pairs of a JSON object back as an intent table. -/
def decodeEntries : List (String × Json) → Option IntentTable
  | [] => some []
  | (k, Json.arr js) :: rest =>
      match decodeStrList js, decodeEntries rest with
      | some ws, some t => some ((k, ws) :: t)
      | _, _ => none
  | _ => none

/-- Read an intent table from the JSON value `json.load` returns. -/
def decodeTable : Json → Option IntentTable
  | Json.obj kvs => decodeEntries kvs
  | _ => none

/-- `json.dump` of the `intent_keywords` dict: a JSON object mapping each
intent name to the array of its keywords. -/
def encodeTable (t : IntentTable) : Json :=
  Json.obj (t.map (fun p => (p.1, Json.arr (p.2.map Json.str))))

/-- The persisted model files: path to JSON file content. -/
abbrev FileStore := List (String × Json)

/-- `IntentClassifier.save_model`: writes `json.dump(self.intent_keywords)` to
`model_path`. -/
def save_model (path : String) (t : IntentTable) (fs : FileStore) : FileStore :=
  (path, encodeTable t) :: fs

/-- `IntentClassifier.load_or_create_model`: `json.load` of the file at
`model_path` when it exists; otherwise `create_default_model` installs (and
saves) the built-in default table. -/
def load_or_create_model (path : String) (fs : FileStore) : Json :=
  match fs.lookup path with
  | some j => j
  | none => encodeTable default_intent_keywords

/-- The combined order established by the stable descending sort: strictly
larger score first, ties in ascending pre-sort rank. -/
def OutOrder (a b : RetrievalResult) : Prop :=
  b.similarity_score < a.similarity_score ∨
    (a.similarity_score = b.similarity_score ∧ a.rank < b.rank)

/-- A one-document store used to instantiate hypothesis-bearing theorems. -/
def w2meta : DocMeta := ⟨"doc.txt", "knowledge_base/technician_manuals/doc.txt"⟩

/-- A one-document store used to instantiate hypothesis-bearing theorems. -/
def w2sys : RAGSystem := ⟨["a"], [w2meta]⟩

/-- The single retrieval result produced by `w2sys` for the query `"a"`. -/
def w2r : RetrievalResult := ⟨"a", w2meta, 1, 1⟩

/-- Metadata of the first document of the two-document store `c2sys`. -/
def c2m1 : DocMeta := ⟨"d1.txt", "knowledge_base/technician_manuals/d1.txt"⟩

/-- Metadata of the second document of the two-document store `c2sys`. -/
def c2m2 : DocMeta := ⟨"d2.txt", "knowledge_base/technician_manuals/d2.txt"⟩

/-- A two-document store on which the sort reorders the scored documents. -/
def c2sys : RAGSystem := ⟨["a b c d", "a b"], [c2m1, c2m2]⟩

/-- A store holding one already-indexed document, for the indexing claims. -/
def oldStore : RAGSystem := ⟨["old document"], [⟨"old.txt", "knowledge_base/old.txt"⟩]⟩

theorem determine_route_cases (i : String) (c : ℚ) (t : String) :
    determine_route i c t = "rule_based" ∨ determine_route i c t = "llm" := by
  unfold determine_route
  split_ifs <;> simp

/-- C9: the routing decision is a pure function of intent and confidence: the
`text` parameter is received but never read, so any two text values give the
same route. -/
theorem C9_route_ignores_text (intent : String) (c : ℚ) (t1 t2 : String) :
    determine_route intent c t1 = determine_route intent c t2 := rfl

/-- C1: `_determine_route` follows the three-branch policy with strict
comparisons: it returns `"llm"` exactly when the simple-intent branch does not
fire, the low-confidence fallback does not fire, and `confidence > 0.7`;
otherwise it returns `"rule_based"`.  At confidence exactly `0.5` and exactly
`0.7` the result is `"rule_based"` for every intent. -/
theorem C1_route_policy (intent : String) (c : ℚ) (t : String) :
    (determine_route intent c t = "rule_based" ∨ determine_route intent c t = "llm")
    ∧ (determine_route intent c t = "llm" ↔
        (¬ (intent ∈ simple_intents ∧ c > 1/2) ∧ ¬ (c < 3/10) ∧ c > 7/10))
    ∧ determine_route intent (1/2) t = "rule_based"
    ∧ determine_route intent (7/10) t = "rule_based" := by
  refine ⟨determine_route_cases intent c t, ?_, ?_, ?_⟩
  · unfold determine_route
    split_ifs with h1 h2 h3 <;> simp_all
  · unfold determine_route
    split_ifs with h1 h2 h3
    · rfl
    · rfl
    · exact absurd h3 (by norm_num)
    · rfl
  · unfold determine_route
    split_ifs with h1 h2 h3
    · rfl
    · rfl
    · exact absurd h3 (by norm_num)
    · rfl

/-- C3: when no keyword of any intent occurs in the lowered text, the scoring
loop leaves the `scores` defaultdict empty and `classify` returns the safe
default `{intent: 'unclear', confidence: 0.1, route: 'rule_based'}`. -/
theorem C3_classify_unclear (table : IntentTable) (text : String)
    (h : ∀ p ∈ table, ∀ kw ∈ p.2, kw ≠ "" ∧ strContains (lowerStr text) kw = false) :
    classify table text = ⟨"unclear", 1/10, "rule_based"⟩ := by
  have hcs : computeScores table (lowerStr text) = [] := by
    rw [computeScores, List.filterMap_eq_nil_iff]
    intro p hp
    have hany : p.2.any (fun kw => strContains (lowerStr text) kw) = false := by
      rw [List.any_eq_false]
      intro kw hkw
      simp [(h p hp kw hkw).2]
    simp [hany]
  simp [classify, hcs, maxScore]

/-- C3 witness: with the built-in default table (all keywords non-empty) the
empty input text contains no keyword, so `classify` returns the default. -/
theorem C3_witness :
    classify default_intent_keywords "" = ⟨"unclear", 1/10, "rule_based"⟩ :=
  C3_classify_unclear default_intent_keywords "" (by decide)

theorem decodeStrList_encode (ws : List String) :
    decodeStrList (ws.map Json.str) = some ws := by
  induction ws with
  | nil => rfl
  | cons w ws ih => simp [decodeStrList, ih]

theorem decodeEntries_encode (t : IntentTable) :
    decodeEntries (t.map (fun p => (p.1, Json.arr (p.2.map Json.str)))) = some t := by
  induction t with
  | nil => rfl
  | cons p rest ih => simp [decodeEntries, decodeStrList_encode, ih]

/-- C7: `save_model` followed by loading from the same path yields back exactly
the intent table that was saved: the loaded JSON value is the encoding of the
saved table, and reading it as an intent-keyword mapping gives the table. -/
theorem C7_save_load_roundtrip (t : IntentTable) (path : String) (fs : FileStore)
    (hkeys : (t.map Prod.fst).Nodup) :
    load_or_create_model path (save_model path t fs) = encodeTable t
    ∧ decodeTable (encodeTable t) = some t := by
  refine ⟨?_, ?_⟩
  · simp [load_or_create_model, save_model, List.lookup]
  · simp [decodeTable, encodeTable, decodeEntries_encode]

/-- C7 witness: round trip of the built-in default table at the default model
path over an empty file store. -/
theorem C7_witness :
    load_or_create_model "models/intent_keywords.json"
        (save_model "models/intent_keywords.json" default_intent_keywords []) =
      encodeTable default_intent_keywords
    ∧ decodeTable (encodeTable default_intent_keywords) = some default_intent_keywords :=
  C7_save_load_roundtrip default_intent_keywords "models/intent_keywords.json" [] (by decide)

/-- C8 counterexample: with one document indexed and a directory scan that
raises, `index_documents` returns `False` but the store does NOT keep the
previously indexed documents — `self.documents = []` runs before the scan, so
the old index is gone. -/
theorem C8_counterexample :
    ¬ ((index_documents oldStore none).2 = false →
        (index_documents oldStore none).1 = oldStore) := by
  intro h
  exact absurd (h rfl) (by decide)

/-- C8 amended: when `index_documents` fails (returns `False`), the store has
already been cleared: the resulting state is the empty index, not the
previously indexed one.  The old index is discarded at the start of every call. -/
theorem C8_amended_index_clears (st : RAGSystem) (scan : Option (List FileEntry))
    (h : (index_documents st scan).2 = false) :
    (index_documents st scan).1 = ⟨[], []⟩ := by
  cases scan with
  | none => rfl
  | some files => simp [index_documents] at h

/-- C8 witness: the failing call on the one-document store leaves the empty
index behind. -/
theorem C8_witness : (index_documents oldStore none).1 = ⟨[], []⟩ :=
  C8_amended_index_clears oldStore none rfl

theorem scoreLoop_map_proj (qw : Finset String) (ps : List (String × DocMeta))
    (acc : List RetrievalResult) :
    (scoreLoop qw ps acc).map (fun r => (r.text, r.metadata)) =
      acc.map (fun r => (r.text, r.metadata)) ++
        ps.filter (fun p => 0 < (qw ∩ wordSet p.1).card) := by
  induction ps generalizing acc with
  | nil => simp [scoreLoop]
  | cons p rest ih =>
    obtain ⟨doc, meta⟩ := p
    by_cases h : 0 < (qw ∩ wordSet doc).card
    · rw [scoreLoop, if_pos h, ih]
      simp [List.filter_cons, Finset.card_pos.mp h]
    · rw [scoreLoop, if_neg h, ih]
      have hne : ¬ (qw ∩ wordSet doc).Nonempty := by
        rw [← Finset.card_pos]; exact h
      simp [List.filter_cons, hne]

theorem scoredDocs_map_proj (sys : RAGSystem) (q : String) :
    (scoredDocs sys q).map (fun r => (r.text, r.metadata)) =
      (sys.documents.zip sys.metadata).filter
        (fun p => 0 < (wordSet q ∩ wordSet p.1).card) := by
  have h := scoreLoop_map_proj (wordSet q) (sys.documents.zip sys.metadata) []
  simpa [scoredDocs] using h

theorem scoreLoop_map_rank (qw : Finset String) (ps : List (String × DocMeta))
    (acc : List RetrievalResult) :
    (scoreLoop qw ps acc).map (fun r => r.rank) =
      acc.map (fun r => r.rank) ++
        List.range' (acc.length + 1)
          ((ps.filter (fun p => 0 < (qw ∩ wordSet p.1).card)).length) := by
  induction ps generalizing acc with
  | nil => simp [scoreLoop]
  | cons p rest ih =>
    obtain ⟨doc, meta⟩ := p
    by_cases h : 0 < (qw ∩ wordSet doc).card
    · rw [scoreLoop, if_pos h, ih]
      simp [List.filter_cons, Finset.card_pos.mp h, List.range'_succ]
    · rw [scoreLoop, if_neg h, ih]
      have hne : ¬ (qw ∩ wordSet doc).Nonempty := by
        rw [← Finset.card_pos]; exact h
      simp [List.filter_cons, hne]

theorem scoredDocs_map_rank (sys : RAGSystem) (q : String) :
    (scoredDocs sys q).map (fun r => r.rank) =
      List.range' 1 (scoredDocs sys q).length := by
  have hlen : (scoredDocs sys q).length =
      ((sys.documents.zip sys.metadata).filter
        (fun p => 0 < (wordSet q ∩ wordSet p.1).card)).length := by
    have h := congrArg List.length (scoredDocs_map_proj sys q)
    simpa using h
  have h := scoreLoop_map_rank (wordSet q) (sys.documents.zip sys.metadata) []
  rw [hlen]
  simpa [scoredDocs] using h

theorem scoreLoop_mem (qw : Finset String) (ps : List (String × DocMeta))
    (acc : List RetrievalResult) (r : RetrievalResult) (h : r ∈ scoreLoop qw ps acc) :
    r ∈ acc ∨ (0 < (qw ∩ wordSet r.text).card ∧
      r.similarity_score =
        ((qw ∩ wordSet r.text).card : ℚ) / ((qw ∪ wordSet r.text).card : ℚ)) := by
  induction ps generalizing acc with
  | nil =>
    rw [scoreLoop] at h
    exact Or.inl h
  | cons p rest ih =>
    obtain ⟨doc, meta⟩ := p
    by_cases hc : 0 < (qw ∩ wordSet doc).card
    · rw [scoreLoop, if_pos hc] at h
      rcases ih _ h with hacc | hP
      · rcases List.mem_append.mp hacc with h1 | h2
        · exact Or.inl h1
        · right
          have h2' : r = ⟨doc, meta,
              ((qw ∩ wordSet doc).card : ℚ) / ((qw ∪ wordSet doc).card : ℚ),
              acc.length + 1⟩ := by simpa using h2
          subst h2'
          exact ⟨hc, rfl⟩
      · exact Or.inr hP
    · rw [scoreLoop, if_neg hc] at h
      exact ih _ h

theorem scoredDocs_nil_of_no_overlap (sys : RAGSystem) (q : String)
    (hall : ∀ d ∈ sys.documents, (wordSet q ∩ wordSet d).card = 0) :
    scoredDocs sys q = [] := by
  have hf : (sys.documents.zip sys.metadata).filter
      (fun p => 0 < (wordSet q ∩ wordSet p.1).card) = [] := by
    rw [List.filter_eq_nil_iff]
    intro p hp
    have hd := (List.of_mem_zip hp).1
    simp [hall p.1 hd]
  have h := scoredDocs_map_proj sys q
  rw [hf] at h
  simpa using h

theorem insertDesc_perm (x : RetrievalResult) (l : List RetrievalResult) :
    (insertDesc x l).Perm (x :: l) := by
  induction l with
  | nil => exact List.Perm.refl _
  | cons y ys ih =>
    by_cases h : y.similarity_score ≤ x.similarity_score
    · rw [insertDesc, if_pos h]
    · rw [insertDesc, if_neg h]
      exact (ih.cons y).trans (List.Perm.swap x y ys)

theorem sortDesc_perm (l : List RetrievalResult) : (sortDesc l).Perm l := by
  induction l with
  | nil => exact List.Perm.refl _
  | cons x xs ih => exact (insertDesc_perm x (sortDesc xs)).trans (ih.cons x)

theorem outOrder_insertDesc (x : RetrievalResult) (l : List RetrievalResult)
    (hl : l.Pairwise OutOrder) (hx : ∀ y ∈ l, x.rank < y.rank) :
    (insertDesc x l).Pairwise OutOrder := by
  induction l with
  | nil => simp [insertDesc]
  | cons y ys ih =>
    rcases List.pairwise_cons.mp hl with ⟨hy, hys⟩
    by_cases h : y.similarity_score ≤ x.similarity_score
    · rw [insertDesc, if_pos h]
      refine List.pairwise_cons.mpr ⟨?_, hl⟩
      intro z hz
      rcases List.mem_cons.mp hz with rfl | hz'
      · rcases lt_or_eq_of_le h with hlt | heq
        · exact Or.inl hlt
        · exact Or.inr ⟨heq.symm, hx z (List.mem_cons_self _ _)⟩
      · have hyz := hy z hz'
        have hzy : z.similarity_score ≤ y.similarity_score := by
          rcases hyz with h1 | h1
          · exact le_of_lt h1
          · exact le_of_eq h1.1.symm
        rcases lt_or_eq_of_le (le_trans hzy h) with hlt | heq
        · exact Or.inl hlt
        · exact Or.inr ⟨heq.symm, hx z (List.mem_cons_of_mem _ hz')⟩
    · rw [insertDesc, if_neg h]
      push_neg at h
      refine List.pairwise_cons.mpr
        ⟨?_, ih hys (fun z hz => hx z (List.mem_cons_of_mem _ hz))⟩
      intro z hz
      have hz2 : z ∈ x :: ys := (insertDesc_perm x ys).mem_iff.mp hz
      rcases List.mem_cons.mp hz2 with rfl | hz'
      · exact Or.inl h
      · exact hy z hz'

theorem outOrder_sortDesc (l : List RetrievalResult)
    (hl : l.Pairwise (fun a b => a.rank < b.rank)) :
    (sortDesc l).Pairwise OutOrder := by
  induction l with
  | nil => simp [sortDesc]
  | cons x xs ih =>
    rcases List.pairwise_cons.mp hl with ⟨hx, hxs⟩
    exact outOrder_insertDesc x (sortDesc xs) (ih hxs)
      (fun y hy => hx y ((sortDesc_perm xs).mem_iff.mp hy))

theorem pairwise_lt_rangeFrom (s n : ℕ) : (List.range' s n).Pairwise (· < ·) := by
  induction n generalizing s with
  | zero => simp
  | succ n ih =>
    rw [List.range'_succ]
    exact List.Pairwise.cons (by simp; omega) (ih (s + 1))

theorem scoredDocs_rank_pairwise (sys : RAGSystem) (q : String) :
    (scoredDocs sys q).Pairwise (fun a b => a.rank < b.rank) := by
  have hp : ((scoredDocs sys q).map (fun r => r.rank)).Pairwise (· < ·) := by
    rw [scoredDocs_map_rank sys q]
    exact pairwise_lt_rangeFrom 1 _
  exact List.pairwise_map.mp hp

theorem retrieve_subset_scored (sys : RAGSystem) (q : String) (k : ℕ)
    (r : RetrievalResult) (h : r ∈ retrieve_context sys q k) :
    r ∈ scoredDocs sys q := by
  rw [retrieve_context] at h
  split_ifs at h with hd
  · simp at h
  · exact (sortDesc_perm _).mem_iff.mp (List.take_subset _ _ h)

theorem scoredDocs_w2 : scoredDocs w2sys "a" = [w2r] := by
  have hc : (wordSet "a").card = 1 := by decide
  have hne : (wordSet "a").Nonempty := by decide
  norm_num [scoredDocs, scoreLoop, w2sys, hc, hne, w2r]

theorem retrieve_w2 : retrieve_context w2sys "a" 3 = [w2r] := by
  rw [retrieve_context, if_neg (by simp [w2sys]), scoredDocs_w2]
  simp [sortDesc, insertDesc]

theorem retrieve_c2 :
    retrieve_context c2sys "a b" 3 =
      [⟨"a b", c2m2, 1, 2⟩, ⟨"a b c d", c2m1, 1/2, 1⟩] := by
  have h1 : (wordSet "a b" ∩ wordSet "a b c d").card = 2 := by decide
  have h2 : (wordSet "a b" ∪ wordSet "a b c d").card = 4 := by decide
  have h3 : (wordSet "a b").card = 2 := by decide
  have h4 : (wordSet "a b").Nonempty := by decide
  have hsd : scoredDocs c2sys "a b" =
      [⟨"a b c d", c2m1, 1/2, 1⟩, ⟨"a b", c2m2, 1, 2⟩] := by
    norm_num [scoredDocs, scoreLoop, c2sys, h1, h2, h3, h4]
  rw [retrieve_context, if_neg (by simp [c2sys]), hsd]
  norm_num [sortDesc, insertDesc]

theorem retrieve_c4 :
    retrieve_context c2sys "a" 1 = [⟨"a b", c2m2, 1/2, 2⟩] := by
  have h1 : (wordSet "a" ∩ wordSet "a b c d").card = 1 := by decide
  have h2 : (wordSet "a" ∪ wordSet "a b c d").card = 4 := by decide
  have h3 : (wordSet "a" ∩ wordSet "a b").card = 1 := by decide
  have h4 : (wordSet "a" ∪ wordSet "a b").card = 2 := by decide
  have hsd : scoredDocs c2sys "a" =
      [⟨"a b c d", c2m1, 1/4, 1⟩, ⟨"a b", c2m2, 1/2, 2⟩] := by
    norm_num [scoredDocs, scoreLoop, c2sys, h1, h2, h3, h4]
  rw [retrieve_context, if_neg (by simp [c2sys]), hsd]
  norm_num [sortDesc, insertDesc]

/-- C5: the sequence returned by `retrieve_context` is sorted by non-increasing
similarity score; results with equal scores keep the original document order
(their pre-sort ranks increase); the length is at most `k`; and the result is
empty when the query shares no word with any document. -/
theorem C5_retrieve_sorted_stable_bounded (sys : RAGSystem) (q : String) (k : ℕ) :
    (retrieve_context sys q k).Pairwise
        (fun a b => b.similarity_score ≤ a.similarity_score)
    ∧ (retrieve_context sys q k).Pairwise
        (fun a b => a.similarity_score = b.similarity_score → a.rank < b.rank)
    ∧ (retrieve_context sys q k).length ≤ k
    ∧ ((∀ d ∈ sys.documents, (wordSet q ∩ wordSet d).card = 0) →
        retrieve_context sys q k = []) := by
  have htake : (retrieve_context sys q k).Pairwise OutOrder := by
    rw [retrieve_context]
    split_ifs
    · simp
    · exact (outOrder_sortDesc _ (scoredDocs_rank_pairwise sys q)).sublist
        (List.take_sublist _ _)
  refine ⟨?_, ?_, ?_, ?_⟩
  · refine htake.imp (fun hab => ?_)
    rcases hab with h | h
    · exact le_of_lt h
    · exact le_of_eq h.1.symm
  · refine htake.imp (fun hab heq => ?_)
    rcases hab with h | h
    · exact absurd (heq ▸ h) (lt_irrefl _)
    · exact h.2
  · rw [retrieve_context]
    split_ifs
    · simp
    · simpa using List.length_take_le k _
  · intro hall
    rw [retrieve_context]
    split_ifs
    · rfl
    · rw [scoredDocs_nil_of_no_overlap sys q hall]
      simp [sortDesc]

/-- C5 witness: a query with no word in common with the store's single
document retrieves nothing. -/
theorem C5_witness : retrieve_context w2sys "xyz" 3 = [] :=
  (C5_retrieve_sorted_stable_bounded w2sys "xyz" 3).2.2.2 (by decide)

/-- C10: for every entry of the scored list, the denominator of the similarity
score — the size of the union of the query's and the document's word sets — is
non-zero (the `overlap > 0` guard forces a non-empty intersection, hence a
non-empty union), so the division is never by zero. -/
theorem C10_no_division_by_zero (sys : RAGSystem) (q : String) (r : RetrievalResult)
    (h : r ∈ scoredDocs sys q) :
    (wordSet q ∪ wordSet r.text).card ≠ 0 ∧
      r.similarity_score =
        ((wordSet q ∩ wordSet r.text).card : ℚ) / ((wordSet q ∪ wordSet r.text).card : ℚ) := by
  rcases scoreLoop_mem (wordSet q) (sys.documents.zip sys.metadata) [] r h with h0 | ⟨hpos, hs⟩
  · simp at h0
  · refine ⟨?_, hs⟩
    have hle := Finset.card_le_card
      (Finset.inter_subset_union (s := wordSet q) (t := wordSet r.text))
    omega

/-- C10 witness: on the one-document store, the single scored entry has a
non-zero union size and carries the word-overlap score. -/
theorem C10_witness :
    (wordSet "a" ∪ wordSet w2r.text).card ≠ 0 ∧
      w2r.similarity_score =
        ((wordSet "a" ∩ wordSet w2r.text).card : ℚ) /
          ((wordSet "a" ∪ wordSet w2r.text).card : ℚ) :=
  C10_no_division_by_zero w2sys "a" w2r (by rw [scoredDocs_w2]; exact List.mem_singleton_self _)

/-- C2 counterexample: on a store whose second document outranks the first for
the query `"a b"`, the returned sequence's ranks are `[2, 1]`, not the 1-based
positions `[1, 2]`: the rank is not assigned after sorting. -/
theorem C2_counterexample :
    ¬ ((retrieve_context c2sys "a b" 3).map (fun r => r.rank) =
        List.range' 1 (retrieve_context c2sys "a b" 3).length) := by
  rw [retrieve_c2]
  decide

/-- C2 amended: the rank field records the 1-based position of the result in
the pre-sort scored list `scored_docs` (ranks are assigned before the sort, in
original document order), not the position in the returned sequence. -/
theorem C2_rank_is_presort_position (sys : RAGSystem) (q : String) (k : ℕ)
    (r : RetrievalResult) (h : r ∈ retrieve_context sys q k) :
    ∃ i, ∃ hi : i < (scoredDocs sys q).length,
      (scoredDocs sys q).get ⟨i, hi⟩ = r ∧ r.rank = i + 1 := by
  have hmem : r ∈ scoredDocs sys q := retrieve_subset_scored sys q k r h
  rcases List.mem_iff_getElem.mp hmem with ⟨i, hi, hget⟩
  refine ⟨i, hi, by simpa [List.get_eq_getElem] using hget, ?_⟩
  have hlen : i < ((scoredDocs sys q).map (fun r => r.rank)).length := by simpa using hi
  have h2 := List.getElem_of_eq (scoredDocs_map_rank sys q) hlen
  rw [List.getElem_map, hget, List.getElem_range'] at h2
  omega

/-- C2 witness: the single result retrieved from the one-document store sits at
pre-sort position 0 and carries rank 1. -/
theorem C2_witness :
    ∃ i, ∃ hi : i < (scoredDocs w2sys "a").length,
      (scoredDocs w2sys "a").get ⟨i, hi⟩ = w2r ∧ w2r.rank = i + 1 :=
  C2_rank_is_presort_position w2sys "a" 3 w2r
    (by rw [retrieve_w2]; exact List.mem_singleton_self _)

/-- C4 counterexample: with two documents both sharing a word with the query
but `k = 1`, the lower-scored document does NOT appear in the output although
its word set meets the query's: `[:k]` truncation breaks the claimed
equivalence. -/
theorem C4_counterexample :
    ¬ ((0 < (wordSet "a" ∩ wordSet "a b c d").card) ↔
        (∃ r ∈ retrieve_context c2sys "a" 1, r.text = "a b c d" ∧ r.metadata = c2m1)) := by
  rw [retrieve_c4]
  intro hiff
  rcases hiff.mp (by decide) with ⟨r, hr, hrt, hrm⟩
  have hre : r = ⟨"a b", c2m2, 1/2, 2⟩ := by simpa using hr
  subst hre
  simp at hrt

/-- C4 amended: every returned result shares a word with the query and carries
the Jaccard-style score |q ∩ d| / |q ∪ d|; the full scored list (before the
`[:k]` truncation) contains a document exactly when its word set meets the
query's; and a query with no words yields the empty result. -/
theorem C4_overlap_and_score (sys : RAGSystem) (q : String) (k : ℕ) :
    (∀ r ∈ retrieve_context sys q k,
        0 < (wordSet q ∩ wordSet r.text).card ∧
          r.similarity_score =
            ((wordSet q ∩ wordSet r.text).card : ℚ) /
              ((wordSet q ∪ wordSet r.text).card : ℚ))
    ∧ (∀ d m, (d, m) ∈ sys.documents.zip sys.metadata →
        ((∃ r ∈ scoredDocs sys q, r.text = d ∧ r.metadata = m) ↔
          0 < (wordSet q ∩ wordSet d).card))
    ∧ (wordSet q = ∅ → retrieve_context sys q k = []) := by
  refine ⟨?_, ?_, ?_⟩
  · intro r hr
    have hmem := retrieve_subset_scored sys q k r hr
    rcases scoreLoop_mem (wordSet q) _ [] r hmem with h0 | hp
    · simp at h0
    · exact hp
  · intro d m hdm
    constructor
    · rintro ⟨r, hr, hrt, hrm⟩
      have hmm : (r.text, r.metadata) ∈ (sys.documents.zip sys.metadata).filter
          (fun p => 0 < (wordSet q ∩ wordSet p.1).card) := by
        rw [← scoredDocs_map_proj sys q]
        exact List.mem_map_of_mem _ hr
      have hpred := List.of_mem_filter hmm
      rw [hrt] at hpred
      simpa using hpred
    · intro hpos
      have hmm : (d, m) ∈ (sys.documents.zip sys.metadata).filter
          (fun p => 0 < (wordSet q ∩ wordSet p.1).card) :=
        List.mem_filter.mpr ⟨hdm, by simpa using hpos⟩
      rw [← scoredDocs_map_proj sys q] at hmm
      rcases List.mem_map.mp hmm with ⟨r, hr, hpr⟩
      exact ⟨r, hr, congrArg Prod.fst hpr, congrArg Prod.snd hpr⟩
  · intro hq
    have hall : ∀ d ∈ sys.documents, (wordSet q ∩ wordSet d).card = 0 := by
      intro d hd
      rw [hq]
      simp
    rw [retrieve_context]
    split_ifs
    · rfl
    · rw [scoredDocs_nil_of_no_overlap sys q hall]
      simp [sortDesc]

/-- C4 witness: the one-document store's result carries the word-overlap score,
and the empty query retrieves nothing. -/
theorem C4_witness :
    (0 < (wordSet "a" ∩ wordSet w2r.text).card ∧
      w2r.similarity_score =
        ((wordSet "a" ∩ wordSet w2r.text).card : ℚ) /
          ((wordSet "a" ∪ wordSet w2r.text).card : ℚ))
    ∧ retrieve_context w2sys "" 5 = [] :=
  ⟨(C4_overlap_and_score w2sys "a" 3).1 w2r
      (by rw [retrieve_w2]; exact List.mem_singleton_self _),
   (C4_overlap_and_score w2sys "" 5).2.2 (by decide)⟩

theorem joinSep_cons_len (sep x : String) (xs : List String) :
    x.length ≤ (joinSep sep (x :: xs)).length := by
  cases xs with
  | nil => simp [joinSep]
  | cons y ys =>
    rw [joinSep]
    · simp only [String.length_append]
      omega
    · simp

theorem contextBlock_len (r : RetrievalResult) : 0 < (contextBlock r).length := by
  have h8 : ("Source: " : String).length = 8 := by decide
  rw [contextBlock]
  simp [String.length_append, h8]

theorem joinSep_blocks_ne_empty (r : RetrievalResult) (rest : List RetrievalResult) :
    joinSep "\n\n---\n\n" ((r :: rest).map contextBlock) ≠ "" := by
  intro h
  have h0 : (joinSep "\n\n---\n\n" ((r :: rest).map contextBlock)).length = 0 := by
    rw [h]
    decide
  rw [List.map_cons] at h0
  have h1 := joinSep_cons_len "\n\n---\n\n" (contextBlock r) (rest.map contextBlock)
  have h2 := contextBlock_len r
  omega

/-- C6: `get_context_string` returns the empty string exactly when
`retrieve_context` returns nothing (in particular for an empty store);
otherwise it returns the `"Source: {filename}\n{text}"` blocks of the results,
in order, joined by the fixed separator. -/
theorem C6_context_string (sys : RAGSystem) (q : String) (k : ℕ) :
    (get_context_string sys q k = "" ↔ retrieve_context sys q k = [])
    ∧ (retrieve_context sys q k ≠ [] →
        get_context_string sys q k =
          joinSep "\n\n---\n\n" ((retrieve_context sys q k).map contextBlock))
    ∧ (sys.documents = [] → get_context_string sys q k = "") := by
  cases hres : retrieve_context sys q k with
  | nil =>
    refine ⟨?_, ?_, ?_⟩
    · simp [get_context_string, hres]
    · intro hne
      exact absurd rfl hne
    · intro hd
      simp [get_context_string, hres]
  | cons r rest =>
    refine ⟨?_, ?_, ?_⟩
    · constructor
      · intro h
        rw [get_context_string] at h
        simp only [hres] at h
        rw [if_neg (by simp)] at h
        exact absurd h (joinSep_blocks_ne_empty r rest)
      · intro h
        simp at h
    · intro hne
      rw [get_context_string]
      simp only [hres]
      rw [if_neg (by simp)]
    · intro hd
      rw [retrieve_context, if_pos hd] at hres
      simp at hres

/-- C6 witness: the one-document store formats its single result as a source
block, and the empty store yields the empty string. -/
theorem C6_witness :
    get_context_string w2sys "a" 3 =
      joinSep "\n\n---\n\n" ((retrieve_context w2sys "a" 3).map contextBlock)
    ∧ get_context_string ⟨[], []⟩ "query" 2 = "" :=
  ⟨(C6_context_string w2sys "a" 3).2.1 (by rw [retrieve_w2]; simp),
   (C6_context_string ⟨[], []⟩ "query" 2).2.2 rfl⟩
